import Mathlib

/-!
Verification of the feedback-grading algorithm and game-round loop of
VSWorlde (src/VSWorlde.py), a Wordle-like terminal game.

Strings are modelled as `List Char`, Python's `str.lower` as
`List.map Char.toLower`, the `remaining` dict counter (with `.get(ch, 0)`
read semantics) as a total function `Char → Nat`, and the `ValueError`
raised on mismatched lengths as the `Except.error` branch of an
`Except String` result.
-/

set_option autoImplicit false

namespace VSWorlde

/-- Feedback glyphs printed per letter: GREEN = exact match, YELLOW =
present elsewhere, BLACK = absent, mirroring the module-level constants
of the source. -/
inductive Tile where
  | GREEN
  | YELLOW
  | BLACK
deriving DecidableEq

/-- The per-character counter: Python's `remaining` dict, where a missing
key reads as `0` via `remaining.get(ch, 0)`. -/
abbrev Counter := Char → Nat

/-- Model of `remaining[ch] = remaining.get(ch, 0) + 1`. -/
def incr (rem : Counter) (ch : Char) : Counter :=
  fun x => if x = ch then rem ch + 1 else rem x

/-- Model of `remaining[ch] -= 1` (only reached when the value is positive). -/
def decr (rem : Counter) (ch : Char) : Counter :=
  fun x => if x = ch then rem ch - 1 else rem x

/-- First loop of `grade_guess`: walk solution and guess in lockstep,
mark GREEN where the characters agree, otherwise leave the BLACK
initialisation in place and count the unmatched solution character. -/
def firstPass : List Char → List Char → Counter → List Tile × Counter
  | [], _, rem => ([], rem)
  | _ :: _, [], rem => ([], rem)
  | s :: ss, g :: gs, rem =>
    if g = s then
      let r := firstPass ss gs rem
      (Tile.GREEN :: r.1, r.2)
    else
      let r := firstPass ss gs (incr rem s)
      (Tile.BLACK :: r.1, r.2)

/-- Second loop of `grade_guess`: walk the guess with the feedback of the
first pass, skip GREEN positions, turn a position YELLOW while its
character still has remaining budget, and otherwise leave the feedback
entry unchanged. -/
def secondPass : List Char → List Tile → Counter → List Tile
  | [], fbs, _ => fbs
  | _ :: _, [], _ => []
  | g :: gs, fb :: fbs, rem =>
    if fb = Tile.GREEN then
      Tile.GREEN :: secondPass gs fbs rem
    else if rem g > 0 then
      Tile.YELLOW :: secondPass gs fbs (decr rem g)
    else
      fb :: secondPass gs fbs rem

/-- Embedding of `grade_guess(solution, guess)`: lower-case both inputs,
raise on a length mismatch, then run the two counting passes. -/
def grade_guess (solution guess : List Char) : Except String (List Tile) :=
  let solution := solution.map Char.toLower
  let guess := guess.map Char.toLower
  if solution.length ≠ guess.length then
    Except.error "solution and guess must be same length"
  else
    let r := firstPass solution guess (fun _ => 0)
    Except.ok (secondPass guess r.1 r.2)

/-- Grading a string against itself marks every position GREEN in the
first pass and the second pass keeps every GREEN. -/
theorem firstPass_self (l : List Char) (rem : Counter) :
    firstPass l l rem = (List.replicate l.length Tile.GREEN, rem) := by
  induction l with
  | nil => rfl
  | cons a l ih => simp [firstPass, ih, List.replicate]

/-- The second pass leaves an all-GREEN feedback row unchanged. -/
theorem secondPass_all_green (g : List Char) (fb : List Tile) (rem : Counter)
    (h : ∀ t ∈ fb, t = Tile.GREEN) : secondPass g fb rem = fb := by
  induction g generalizing fb rem with
  | nil => rfl
  | cons a g ih =>
    cases fb with
    | nil => rfl
    | cons t fbs =>
      have ht : t = Tile.GREEN := h t (by simp)
      subst ht
      simp [secondPass, ih fbs rem (fun u hu => h u (by simp [hu]))]

/-- The first pass produces one tile per lockstep position. -/
theorem firstPass_length (s g : List Char) (rem : Counter) :
    (firstPass s g rem).1.length = min s.length g.length := by
  induction s generalizing g rem with
  | nil => simp [firstPass]
  | cons a s ih =>
    cases g with
    | nil => simp [firstPass]
    | cons b g =>
      by_cases hab : b = a
      · simp [firstPass, hab, ih, Nat.succ_min_succ]
      · simp [firstPass, hab, ih, Nat.succ_min_succ]

/-- The second pass preserves the feedback length when it matches the
guess length. -/
theorem secondPass_length (g : List Char) (fb : List Tile) (rem : Counter)
    (h : g.length = fb.length) : (secondPass g fb rem).length = fb.length := by
  induction g generalizing fb rem with
  | nil => rfl
  | cons a g ih =>
    cases fb with
    | nil => simp at h
    | cons t fbs =>
      simp only [List.length_cons, Nat.succ.injEq] at h
      by_cases ht : t = Tile.GREEN
      · simp [secondPass, ht, ih fbs rem h]
      · by_cases hr : rem a > 0
        · simp [secondPass, ht, hr, ih fbs _ h]
        · simp [secondPass, ht, hr, ih fbs rem h]

/-- C3: the four concrete scenarios of the spec and of `_selftest`, with
GREEN = Exact, YELLOW = Present, BLACK = Absent. -/
theorem grade_guess_concrete_scenarios :
    grade_guess "apple".toList "apple".toList =
      Except.ok [Tile.GREEN, Tile.GREEN, Tile.GREEN, Tile.GREEN, Tile.GREEN] ∧
    grade_guess "crane".toList "crate".toList =
      Except.ok [Tile.GREEN, Tile.GREEN, Tile.GREEN, Tile.BLACK, Tile.GREEN] ∧
    grade_guess "arrow".toList "rarer".toList =
      Except.ok [Tile.YELLOW, Tile.YELLOW, Tile.GREEN, Tile.BLACK, Tile.BLACK] ∧
    grade_guess "sense".toList "seeds".toList =
      Except.ok [Tile.GREEN, Tile.GREEN, Tile.YELLOW, Tile.BLACK, Tile.YELLOW] :=
  ⟨rfl, rfl, rfl, rfl⟩

/-- C4: grading any string against itself classifies every position
GREEN (Exact). -/
theorem grade_guess_self_all_green (s : List Char) :
    grade_guess s s = Except.ok (List.replicate s.length Tile.GREEN) := by
  simp only [grade_guess, List.length_map, ne_eq]
  rw [if_neg (by simp), firstPass_self,
    secondPass_all_green _ _ _ (fun t ht => List.eq_of_mem_replicate ht)]
  simp

/-- The grading call returns its length error exactly on inputs of
unequal length. -/
theorem grade_guess_error_iff (solution guess : List Char) :
    grade_guess solution guess = Except.error "solution and guess must be same length" ↔
      solution.length ≠ guess.length := by
  by_cases h : solution.length = guess.length
  · simp [grade_guess, h]
  · simp [grade_guess, h]

/-- C6: `grade_guess` raises the length-mismatch error exactly when the
two inputs differ in length; on that error no feedback row is produced,
since the error branch carries no list. -/
theorem grade_guess_length_mismatch_iff (solution guess : List Char) :
    grade_guess solution guess = Except.error "solution and guess must be same length" ↔
      solution.length ≠ guess.length :=
  grade_guess_error_iff solution guess

/-- C7: a successful grading returns one classification per guess
position, and hence one per solution position. -/
theorem grade_guess_length (solution guess : List Char) (fb : List Tile)
    (h : grade_guess solution guess = Except.ok fb) :
    fb.length = guess.length ∧ fb.length = solution.length := by
  simp only [grade_guess] at h
  split at h
  · cases h
  · rename_i hl
    have hlen : solution.length = guess.length := by
      simpa [List.length_map] using hl
    injection h with h
    subst h
    rw [secondPass_length, firstPass_length]
    · simp [hlen]
    · simp [firstPass_length, hlen]

/-- Witness for C7 at the crane/crate scenario. -/
theorem grade_guess_length_witness :
    ([Tile.GREEN, Tile.GREEN, Tile.GREEN, Tile.BLACK, Tile.GREEN] : List Tile).length =
        "crate".toList.length ∧
      ([Tile.GREEN, Tile.GREEN, Tile.GREEN, Tile.BLACK, Tile.GREEN] : List Tile).length =
        "crane".toList.length :=
  grade_guess_length "crane".toList "crate".toList
    [Tile.GREEN, Tile.GREEN, Tile.GREEN, Tile.BLACK, Tile.GREEN] rfl

/-- Lowering a character twice is the same as lowering it once: the
image of the upper-case range lies outside the upper-case range. -/
theorem toLower_toLower (c : Char) : c.toLower.toLower = c.toLower := by
  by_cases h : c.toNat ≥ 65 ∧ c.toNat ≤ 90
  · have h1 : c.toLower = Char.ofNat (c.toNat + 32) := by
      simp only [Char.toLower]
      rw [if_pos h]
    rw [h1]
    obtain ⟨h65, h90⟩ := h
    have hlo : 97 ≤ c.toNat + 32 := by omega
    have hhi : c.toNat + 32 ≤ 122 := by omega
    generalize c.toNat + 32 = m at hlo hhi
    interval_cases m <;> decide
  · have h1 : c.toLower = c := by
      simp only [Char.toLower]
      rw [if_neg h]
    rw [h1, h1]

/-- Mapping `Char.toLower` over a list is idempotent. -/
theorem map_toLower_idem (l : List Char) :
    (l.map Char.toLower).map Char.toLower = l.map Char.toLower := by
  rw [List.map_map]
  exact List.map_congr_left (fun a _ => toLower_toLower a)

/-- C5: grading is case-insensitive, since both inputs are normalized to
lower case before any comparison. -/
theorem grade_guess_case_insensitive (solution guess : List Char) :
    grade_guess solution guess =
      grade_guess (solution.map Char.toLower) (guess.map Char.toLower) := by
  simp only [grade_guess, map_toLower_idem]

/-- C9: grading is deterministic: two calls on the same pair return the
same result. Freedom from side effects holds by construction of the
embedding: `grade_guess` reads nothing but its two arguments (the source
touches only its locals and the three glyph constants) and mutates no
global state. -/
theorem grade_guess_deterministic (solution guess : List Char)
    (r₁ r₂ : Except String (List Tile))
    (h₁ : grade_guess solution guess = r₁) (h₂ : grade_guess solution guess = r₂) :
    r₁ = r₂ := by
  rw [← h₁, ← h₂]

/-- Witness for C9 at the apple/apple scenario. -/
theorem grade_guess_deterministic_witness :
    (Except.ok [Tile.GREEN, Tile.GREEN, Tile.GREEN, Tile.GREEN, Tile.GREEN] :
        Except String (List Tile)) =
      Except.ok [Tile.GREEN, Tile.GREEN, Tile.GREEN, Tile.GREEN, Tile.GREEN] :=
  grade_guess_deterministic "apple".toList "apple".toList _ _ rfl rfl

/-- Number of solution positions holding character `c` that are not exact
matches: this is the value `remaining[c]` holds after the first pass.
Walks solution and guess in lockstep. -/
def missCount (c : Char) : List Char → List Char → Nat
  | [], _ => 0
  | _ :: _, [] => 0
  | a :: ss, b :: gs => (if a = c ∧ b ≠ a then 1 else 0) + missCount c ss gs

/-- Number of positions where the solution character is `c` and the guess
matches it exactly. -/
def exactCount (c : Char) : List Char → List Char → Nat
  | [], _ => 0
  | _ :: _, [] => 0
  | a :: ss, b :: gs => (if a = c ∧ b = a then 1 else 0) + exactCount c ss gs

/-- Number of positions whose guessed character is `c` and whose feedback
tile is not BLACK, i.e. is classified Exact or Present. -/
def scoredAt (c : Char) : List Char → List Tile → Nat
  | [], _ => 0
  | _ :: _, [] => 0
  | b :: gs, t :: fbs => (if b = c ∧ t ≠ Tile.BLACK then 1 else 0) + scoredAt c gs fbs

/-- Number of GREEN positions whose guessed character is `c`. -/
def greensAt (c : Char) : List Char → List Tile → Nat
  | [], _ => 0
  | _ :: _, [] => 0
  | b :: gs, t :: fbs => (if b = c ∧ t = Tile.GREEN then 1 else 0) + greensAt c gs fbs

/-- The sub-row of feedback tiles at the non-GREEN positions whose guessed
character is `c`, kept in left-to-right order. -/
def tilesAt (c : Char) : List Char → List Tile → List Tile
  | [], _ => []
  | _ :: _, [] => []
  | b :: gs, t :: fbs =>
    if b = c ∧ t ≠ Tile.GREEN then t :: tilesAt c gs fbs else tilesAt c gs fbs

/-- After the first pass, the counter holds its initial value plus the
number of non-exact solution occurrences of each character. -/
theorem firstPass_rem (s g : List Char) (rem : Counter) (c : Char) :
    (firstPass s g rem).2 c = rem c + missCount c s g := by
  induction s generalizing g rem with
  | nil => simp [firstPass, missCount]
  | cons a s ih =>
    cases g with
    | nil => simp [firstPass, missCount]
    | cons b g =>
      by_cases hab : b = a
      · subst hab
        simp [firstPass, missCount, ih]
      · by_cases hac : a = c
        · subst hac
          simp [firstPass, hab, missCount, ih, incr]
          omega
        · simp [firstPass, hab, missCount, ih, incr, hac, Ne.symm hac]

/-- Every tile produced by the first pass is GREEN or BLACK. -/
theorem firstPass_green_black (s g : List Char) (rem : Counter) (t : Tile)
    (ht : t ∈ (firstPass s g rem).1) : t = Tile.GREEN ∨ t = Tile.BLACK := by
  induction s generalizing g rem with
  | nil => simp [firstPass] at ht
  | cons a s ih =>
    cases g with
    | nil => simp [firstPass] at ht
    | cons b g =>
      by_cases hab : b = a
      · simp only [firstPass, if_pos hab, List.mem_cons] at ht
        rcases ht with h | h
        · exact Or.inl h
        · exact ih g rem h
      · simp only [firstPass, if_neg hab, List.mem_cons] at ht
        rcases ht with h | h
        · exact Or.inr h
        · exact ih g _ h

/-- GREEN positions of the first pass at guessed character `c` are exactly
the exact matches of `c` in the solution. -/
theorem firstPass_greensAt (c : Char) (s g : List Char) (rem : Counter) :
    greensAt c g (firstPass s g rem).1 = exactCount c s g := by
  induction s generalizing g rem with
  | nil =>
    cases g with
    | nil => simp [firstPass, greensAt, exactCount]
    | cons b g => simp [firstPass, greensAt, exactCount]
  | cons a s ih =>
    cases g with
    | nil => simp [firstPass, greensAt, exactCount]
    | cons b g =>
      by_cases hab : b = a
      · subst hab
        simp [firstPass, greensAt, exactCount, ih]
      · simp only [firstPass, if_neg hab, greensAt, exactCount]
        rw [if_neg (by simp), if_neg (fun h => hab h.2)]
        simpa using ih g (incr rem a)

/-- Splitting the occurrences of `c` in the solution into exact and
non-exact ones. -/
theorem exactCount_add_missCount (c : Char) (s g : List Char)
    (h : s.length = g.length) :
    exactCount c s g + missCount c s g = s.count c := by
  induction s generalizing g with
  | nil => simp [exactCount, missCount]
  | cons a s ih =>
    cases g with
    | nil => simp at h
    | cons b g =>
      simp only [List.length_cons, Nat.succ.injEq] at h
      have ihg := ih g h
      simp only [exactCount, missCount, List.count_cons]
      by_cases hac : a = c <;> by_cases hba : b = a
      · simp [hac, hba]
        omega
      · have hbc : ¬b = c := fun hh => hba (hh.trans hac.symm)
        simp [hac, hba, hbc]
        omega
      · simp [hac, hba]
        omega
      · simp [hac, hba]
        omega

/-- Decrementing a counter at a key lowers exactly that key. -/
theorem decr_self (rem : Counter) (b : Char) : decr rem b b = rem b - 1 := by
  simp [decr]

/-- Decrementing a counter at a key leaves other keys unchanged. -/
theorem decr_other (rem : Counter) (b c : Char) (h : ¬c = b) :
    decr rem b c = rem c := by
  simp [decr, h]

/-- Head equation of `secondPass` at a GREEN position. -/
theorem secondPass_cons_green (b : Char) (gs : List Char) (fbs : List Tile)
    (rem : Counter) :
    secondPass (b :: gs) (Tile.GREEN :: fbs) rem =
      Tile.GREEN :: secondPass gs fbs rem := by
  simp [secondPass]

/-- Head equation of `secondPass` at a non-GREEN position with budget. -/
theorem secondPass_cons_pos (b : Char) (gs : List Char) (t : Tile)
    (fbs : List Tile) (rem : Counter) (ht : ¬t = Tile.GREEN) (hr : rem b > 0) :
    secondPass (b :: gs) (t :: fbs) rem =
      Tile.YELLOW :: secondPass gs fbs (decr rem b) := by
  simp [secondPass, ht, hr]

/-- Head equation of `secondPass` at a non-GREEN position without budget. -/
theorem secondPass_cons_zero (b : Char) (gs : List Char) (t : Tile)
    (fbs : List Tile) (rem : Counter) (ht : ¬t = Tile.GREEN) (hr : ¬rem b > 0) :
    secondPass (b :: gs) (t :: fbs) rem = t :: secondPass gs fbs rem := by
  simp [secondPass, ht, hr]

/-- Head equation of `tilesAt` at a kept position. -/
theorem tilesAt_cons_keep (c b : Char) (t : Tile) (gs : List Char)
    (fbs : List Tile) (h : b = c ∧ t ≠ Tile.GREEN) :
    tilesAt c (b :: gs) (t :: fbs) = t :: tilesAt c gs fbs := by
  simp [tilesAt, h]

/-- Head equation of `tilesAt` at a dropped position. -/
theorem tilesAt_cons_skip (c b : Char) (t : Tile) (gs : List Char)
    (fbs : List Tile) (h : ¬(b = c ∧ t ≠ Tile.GREEN)) :
    tilesAt c (b :: gs) (t :: fbs) = tilesAt c gs fbs := by
  simp only [tilesAt, if_neg h]

/-- The second pass adds at most `remaining[c]` non-BLACK classifications
at guessed character `c` on top of the GREEN ones already present. -/
theorem secondPass_scoredAt (c : Char) (g : List Char) (fb : List Tile)
    (rem : Counter) (hgb : ∀ t ∈ fb, t = Tile.GREEN ∨ t = Tile.BLACK) :
    scoredAt c g (secondPass g fb rem) ≤ greensAt c g fb + rem c := by
  induction g generalizing fb rem with
  | nil =>
    cases fb with
    | nil => simp [secondPass, scoredAt]
    | cons t fbs => simp [secondPass, scoredAt]
  | cons b g ih =>
    cases fb with
    | nil => simp [secondPass, scoredAt]
    | cons t fbs =>
      have htail : ∀ u ∈ fbs, u = Tile.GREEN ∨ u = Tile.BLACK :=
        fun u hu => hgb u (List.mem_cons_of_mem _ hu)
      rcases hgb t (by simp) with ht | ht <;> subst ht
      · have hrec := ih fbs rem htail
        rw [secondPass_cons_green]
        by_cases hbc : b = c
        · simp only [scoredAt, greensAt]
          simp only [hbc, true_and, and_true, if_pos rfl]
          simp
          omega
        · simp only [scoredAt, greensAt]
          rw [if_neg (fun hh => hbc hh.1), if_neg (fun hh => hbc hh.1)]
          omega
      · by_cases hr : rem b > 0
        · rw [secondPass_cons_pos b g Tile.BLACK fbs rem (by simp) hr]
          by_cases hbc : b = c
          · subst hbc
            have hrec := ih fbs (decr rem b) htail
            rw [decr_self] at hrec
            simp only [scoredAt, greensAt]
            simp
            omega
          · have hrec := ih fbs (decr rem b) htail
            rw [decr_other rem b c (fun hh => hbc hh.symm)] at hrec
            simp only [scoredAt, greensAt]
            rw [if_neg (fun hh => hbc hh.1), if_neg (fun hh => hbc hh.1)]
            omega
        · rw [secondPass_cons_zero b g Tile.BLACK fbs rem (by simp) hr]
          have hrec := ih fbs rem htail
          simp only [scoredAt, greensAt]
          rw [if_neg (by simp : ¬(b = c ∧ Tile.BLACK ≠ Tile.BLACK)),
            if_neg (by simp : ¬(b = c ∧ Tile.BLACK = Tile.GREEN))]
          omega

/-- The second pass lays out, among the non-GREEN positions guessed as
`c`, first YELLOW tiles up to the available budget and then BLACK ones:
ties among duplicates are broken left to right. -/
theorem secondPass_tilesAt (c : Char) (g : List Char) (fb : List Tile)
    (rem : Counter) (hgb : ∀ t ∈ fb, t = Tile.GREEN ∨ t = Tile.BLACK) :
    tilesAt c g (secondPass g fb rem) =
      List.replicate (min (rem c) (tilesAt c g fb).length) Tile.YELLOW ++
        List.replicate ((tilesAt c g fb).length -
          min (rem c) (tilesAt c g fb).length) Tile.BLACK := by
  induction g generalizing fb rem with
  | nil =>
    cases fb with
    | nil => simp [secondPass, tilesAt]
    | cons t fbs => simp [secondPass, tilesAt]
  | cons b g ih =>
    cases fb with
    | nil => simp [secondPass, tilesAt]
    | cons t fbs =>
      have htail : ∀ u ∈ fbs, u = Tile.GREEN ∨ u = Tile.BLACK :=
        fun u hu => hgb u (List.mem_cons_of_mem _ hu)
      rcases hgb t (by simp) with ht | ht <;> subst ht
      · rw [secondPass_cons_green,
          tilesAt_cons_skip c b Tile.GREEN _ _ (by simp),
          tilesAt_cons_skip c b Tile.GREEN _ _ (by simp)]
        exact ih fbs rem htail
      · by_cases hr : rem b > 0
        · rw [secondPass_cons_pos b g Tile.BLACK fbs rem (by simp) hr]
          by_cases hbc : b = c
          · subst hbc
            have hrec := ih fbs (decr rem b) htail
            rw [decr_self] at hrec
            rw [tilesAt_cons_keep b b Tile.YELLOW _ _ (by simp),
              tilesAt_cons_keep b b Tile.BLACK _ _ (by simp), hrec,
              List.length_cons]
            rw [show min (rem b) ((tilesAt b g fbs).length + 1) =
                  min (rem b - 1) (tilesAt b g fbs).length + 1 from by omega,
                show (tilesAt b g fbs).length + 1 -
                    (min (rem b - 1) (tilesAt b g fbs).length + 1) =
                  (tilesAt b g fbs).length -
                    min (rem b - 1) (tilesAt b g fbs).length from by omega]
            simp [List.replicate_succ]
          · have hrec := ih fbs (decr rem b) htail
            rw [decr_other rem b c (fun hh => hbc hh.symm)] at hrec
            rw [tilesAt_cons_skip c b Tile.YELLOW _ _ (fun hh => hbc hh.1),
              tilesAt_cons_skip c b Tile.BLACK _ _ (fun hh => hbc hh.1)]
            exact hrec
        · rw [secondPass_cons_zero b g Tile.BLACK fbs rem (by simp) hr]
          by_cases hbc : b = c
          · subst hbc
            have hr0 : rem b = 0 := by omega
            have hrec := ih fbs rem htail
            rw [tilesAt_cons_keep b b Tile.BLACK _ _ (by simp),
              tilesAt_cons_keep b b Tile.BLACK _ _ (by simp), hrec, hr0,
              List.length_cons]
            simp [List.replicate_succ]
          · have hrec := ih fbs rem htail
            rw [tilesAt_cons_skip c b Tile.BLACK _ _ (fun hh => hbc hh.1),
              tilesAt_cons_skip c b Tile.BLACK _ _ (fun hh => hbc hh.1)]
            exact hrec

/-- On equal-length inputs `grade_guess` reduces to the two counting
passes over the lower-cased strings. -/
theorem grade_guess_ok_eq (solution guess : List Char)
    (h : solution.length = guess.length) :
    grade_guess solution guess = Except.ok
      (secondPass (guess.map Char.toLower)
        (firstPass (solution.map Char.toLower) (guess.map Char.toLower) (fun _ => 0)).1
        (firstPass (solution.map Char.toLower) (guess.map Char.toLower) (fun _ => 0)).2) := by
  simp [grade_guess, h]

/-- A successful grading implies the inputs had equal length. -/
theorem grade_guess_ok_length (solution guess : List Char) (fb : List Tile)
    (h : grade_guess solution guess = Except.ok fb) :
    solution.length = guess.length := by
  by_contra hne
  rw [(grade_guess_error_iff solution guess).2 hne] at h
  cases h

/-- C1: for any character value `c`, the number of positions classified
Exact or Present (GREEN or YELLOW) whose guessed character is `c` never
exceeds the number of occurrences of `c` in the solution. Both strings
are measured after the lower-case normalization `grade_guess` itself
performs; on the lower-case inputs of the data model this is the
identity. -/
theorem grade_guess_char_budget (solution guess : List Char) (fb : List Tile)
    (c : Char) (h : grade_guess solution guess = Except.ok fb) :
    scoredAt c (guess.map Char.toLower) fb ≤ (solution.map Char.toLower).count c := by
  have hlen : solution.length = guess.length := grade_guess_ok_length _ _ _ h
  rw [grade_guess_ok_eq solution guess hlen] at h
  injection h with h
  subst h
  have hgb := firstPass_green_black (solution.map Char.toLower)
    (guess.map Char.toLower) (fun _ => 0)
  calc scoredAt c (guess.map Char.toLower)
        (secondPass (guess.map Char.toLower)
          (firstPass (solution.map Char.toLower) (guess.map Char.toLower) (fun _ => 0)).1
          (firstPass (solution.map Char.toLower) (guess.map Char.toLower) (fun _ => 0)).2)
      ≤ greensAt c (guess.map Char.toLower)
          (firstPass (solution.map Char.toLower) (guess.map Char.toLower) (fun _ => 0)).1 +
        (firstPass (solution.map Char.toLower) (guess.map Char.toLower) (fun _ => 0)).2 c :=
      secondPass_scoredAt c _ _ _ (fun t ht => hgb t ht)
    _ = exactCount c (solution.map Char.toLower) (guess.map Char.toLower) +
        missCount c (solution.map Char.toLower) (guess.map Char.toLower) := by
      rw [firstPass_greensAt, firstPass_rem]
      omega
    _ = (solution.map Char.toLower).count c :=
      exactCount_add_missCount c _ _ (by simp [hlen])

/-- Witness for C1 at the arrow/rarer scenario with character r. -/
theorem grade_guess_char_budget_witness :
    scoredAt 'r' ("rarer".toList.map Char.toLower)
        [Tile.YELLOW, Tile.YELLOW, Tile.GREEN, Tile.BLACK, Tile.BLACK] ≤
      ("arrow".toList.map Char.toLower).count 'r' :=
  grade_guess_char_budget "arrow".toList "rarer".toList
    [Tile.YELLOW, Tile.YELLOW, Tile.GREEN, Tile.BLACK, Tile.BLACK] 'r' rfl

/-- C10: ties among duplicate guess letters break left to right: among
the non-GREEN positions whose guessed character is `c`, the leftmost ones
are YELLOW up to the number of unmatched occurrences of `c` in the
solution and every later one is BLACK. -/
theorem grade_guess_ties_left_to_right (solution guess : List Char)
    (fb : List Tile) (c : Char) (h : grade_guess solution guess = Except.ok fb) :
    tilesAt c (guess.map Char.toLower) fb =
      List.replicate
          (min (missCount c (solution.map Char.toLower) (guess.map Char.toLower))
            (tilesAt c (guess.map Char.toLower) fb).length) Tile.YELLOW ++
        List.replicate
          ((tilesAt c (guess.map Char.toLower) fb).length -
            min (missCount c (solution.map Char.toLower) (guess.map Char.toLower))
              (tilesAt c (guess.map Char.toLower) fb).length) Tile.BLACK := by
  have hlen : solution.length = guess.length := grade_guess_ok_length _ _ _ h
  rw [grade_guess_ok_eq solution guess hlen] at h
  injection h with h
  subst h
  have hgb := firstPass_green_black (solution.map Char.toLower)
    (guess.map Char.toLower) (fun _ => 0)
  have hprof := secondPass_tilesAt c (guess.map Char.toLower)
    (firstPass (solution.map Char.toLower) (guess.map Char.toLower) (fun _ => 0)).1
    (firstPass (solution.map Char.toLower) (guess.map Char.toLower) (fun _ => 0)).2
    (fun t ht => hgb t ht)
  have hrem : (firstPass (solution.map Char.toLower) (guess.map Char.toLower)
      (fun _ => 0)).2 c =
      missCount c (solution.map Char.toLower) (guess.map Char.toLower) := by
    rw [firstPass_rem]
    omega
  have hL : (tilesAt c (guess.map Char.toLower)
      (secondPass (guess.map Char.toLower)
        (firstPass (solution.map Char.toLower) (guess.map Char.toLower) (fun _ => 0)).1
        (firstPass (solution.map Char.toLower) (guess.map Char.toLower) (fun _ => 0)).2)).length =
      (tilesAt c (guess.map Char.toLower)
        (firstPass (solution.map Char.toLower) (guess.map Char.toLower) (fun _ => 0)).1).length := by
    rw [hprof]
    simp only [List.length_append, List.length_replicate]
    omega
  rw [hL, hprof, hrem]

/-- Witness for C10 at the arrow/rarer scenario with character r. -/
theorem grade_guess_ties_left_to_right_witness :
    tilesAt 'r' ("rarer".toList.map Char.toLower)
        [Tile.YELLOW, Tile.YELLOW, Tile.GREEN, Tile.BLACK, Tile.BLACK] =
      List.replicate
          (min (missCount 'r' ("arrow".toList.map Char.toLower)
              ("rarer".toList.map Char.toLower))
            (tilesAt 'r' ("rarer".toList.map Char.toLower)
              [Tile.YELLOW, Tile.YELLOW, Tile.GREEN, Tile.BLACK, Tile.BLACK]).length)
          Tile.YELLOW ++
        List.replicate
          ((tilesAt 'r' ("rarer".toList.map Char.toLower)
              [Tile.YELLOW, Tile.YELLOW, Tile.GREEN, Tile.BLACK, Tile.BLACK]).length -
            min (missCount 'r' ("arrow".toList.map Char.toLower)
                ("rarer".toList.map Char.toLower))
              (tilesAt 'r' ("rarer".toList.map Char.toLower)
                [Tile.YELLOW, Tile.YELLOW, Tile.GREEN, Tile.BLACK, Tile.BLACK]).length)
          Tile.BLACK :=
  grade_guess_ties_left_to_right "arrow".toList "rarer".toList
    [Tile.YELLOW, Tile.YELLOW, Tile.GREEN, Tile.BLACK, Tile.BLACK] 'r' rfl

/-- The three per-position classifications of the spec's data model. -/
inductive Classification where
  | Exact
  | Present
  | Absent
deriving DecidableEq

/-- The error the spec prescribes for inputs of unequal length. -/
inductive GradeError where
  | LengthMismatch
deriving DecidableEq

/-- Display encoding: Exact renders GREEN, Present renders YELLOW,
Absent renders BLACK. -/
def tileOfClass : Classification → Tile
  | Classification.Exact => Tile.GREEN
  | Classification.Present => Tile.YELLOW
  | Classification.Absent => Tile.BLACK

/-- Reference first pass, following the spec's words: for each position,
if the characters agree classify it Exact, and for every position not
classified Exact increment the per-character counter of the solution
character. Non-Exact positions are left unclassified (`none`) for the
second pass. -/
def specFirstPass :
    List Char → List Char → Counter → List (Option Classification) × Counter
  | [], _, rem => ([], rem)
  | _ :: _, [], rem => ([], rem)
  | a :: ss, b :: gs, rem =>
    if b = a then
      let r := specFirstPass ss gs rem
      (some Classification.Exact :: r.1, r.2)
    else
      let r := specFirstPass ss gs (incr rem a)
      (none :: r.1, r.2)

/-- Reference second pass, following the spec's words: positions already
Exact are kept; any other position becomes Present while the guessed
character still has remaining budget (decrementing it), and Absent
otherwise. -/
def specSecondPass :
    List Char → List (Option Classification) → Counter → List Classification
  | [], _, _ => []
  | _ :: _, [], _ => []
  | b :: gs, cl :: cls, rem =>
    match cl with
    | some Classification.Exact =>
      Classification.Exact :: specSecondPass gs cls rem
    | _ =>
      if rem b > 0 then
        Classification.Present :: specSecondPass gs cls (decr rem b)
      else
        Classification.Absent :: specSecondPass gs cls rem

/-- Reference grading operation of the spec (section 4.1): normalize both
inputs to lower case, fail with LengthMismatch on unequal lengths, and
otherwise run the reference first pass to completion before starting the
reference second pass. -/
def grade (solution guess : List Char) : Except GradeError (List Classification) :=
  let solution := solution.map Char.toLower
  let guess := guess.map Char.toLower
  if solution.length ≠ guess.length then
    Except.error GradeError.LengthMismatch
  else
    let r := specFirstPass solution guess (fun _ => 0)
    Except.ok (specSecondPass guess r.1 r.2)

/-- The mark the reference first pass leaves at a position whose code
first pass produced the given tile. -/
def markOfTile (t : Tile) : Option Classification :=
  if t = Tile.GREEN then some Classification.Exact else none

/-- The reference first pass computes the marks of the code first pass
and the identical counter. -/
theorem specFirstPass_eq (s g : List Char) (rem : Counter) :
    specFirstPass s g rem =
      ((firstPass s g rem).1.map markOfTile, (firstPass s g rem).2) := by
  induction s generalizing g rem with
  | nil => cases g <;> simp [specFirstPass, firstPass]
  | cons a s ih =>
    cases g with
    | nil => simp [specFirstPass, firstPass]
    | cons b g =>
      by_cases hab : b = a
      · simp [specFirstPass, firstPass, hab, ih, markOfTile]
      · simp [specFirstPass, firstPass, hab, ih, markOfTile]

/-- The reference second pass renders to exactly the code second pass on
GREEN/BLACK feedback of matching length. -/
theorem specSecondPass_eq (g : List Char) (fb : List Tile) (rem : Counter)
    (hgb : ∀ t ∈ fb, t = Tile.GREEN ∨ t = Tile.BLACK)
    (hlen : g.length = fb.length) :
    (specSecondPass g (fb.map markOfTile) rem).map tileOfClass =
      secondPass g fb rem := by
  induction g generalizing fb rem with
  | nil =>
    cases fb with
    | nil => simp [specSecondPass, secondPass]
    | cons t fbs => simp at hlen
  | cons b g ih =>
    cases fb with
    | nil => simp at hlen
    | cons t fbs =>
      simp only [List.length_cons, Nat.succ.injEq] at hlen
      have htail : ∀ u ∈ fbs, u = Tile.GREEN ∨ u = Tile.BLACK :=
        fun u hu => hgb u (List.mem_cons_of_mem _ hu)
      rcases hgb t (by simp) with ht | ht <;> subst ht
      · rw [secondPass_cons_green]
        simp only [List.map_cons, markOfTile, if_pos rfl, specSecondPass]
        simp [tileOfClass, ih fbs rem htail hlen]
      · by_cases hr : rem b > 0
        · rw [secondPass_cons_pos b g Tile.BLACK fbs rem (by simp) hr]
          simp only [List.map_cons, markOfTile,
            if_neg (by simp : ¬Tile.BLACK = Tile.GREEN), specSecondPass]
          simp [hr, tileOfClass, ih fbs (decr rem b) htail hlen]
        · rw [secondPass_cons_zero b g Tile.BLACK fbs rem (by simp) hr]
          simp only [List.map_cons, markOfTile,
            if_neg (by simp : ¬Tile.BLACK = Tile.GREEN), specSecondPass]
          simp [hr, tileOfClass, ih fbs rem htail hlen]

/-- C2: `grade_guess` computes exactly the spec's two-pass reference
algorithm: Exact marks and counter from a completed first pass, then
Present/Absent from the counter-driven second pass, rendered through the
glyph encoding, with the length error mapped to the raised message. -/
theorem grade_guess_matches_reference (solution guess : List Char) :
    grade_guess solution guess =
      Except.mapError (fun _ => "solution and guess must be same length")
        (Except.map (List.map tileOfClass) (grade solution guess)) := by
  by_cases h : solution.length = guess.length
  · rw [grade_guess_ok_eq solution guess h]
    have hok : grade solution guess =
        Except.ok (specSecondPass (guess.map Char.toLower)
          (specFirstPass (solution.map Char.toLower) (guess.map Char.toLower)
            (fun _ => 0)).1
          (specFirstPass (solution.map Char.toLower) (guess.map Char.toLower)
            (fun _ => 0)).2) := by
      simp [grade, h]
    rw [hok]
    simp only [Except.map, Except.mapError]
    have hfb := firstPass_green_black (solution.map Char.toLower)
      (guess.map Char.toLower) (fun _ => 0)
    have hflen : (guess.map Char.toLower).length =
        (firstPass (solution.map Char.toLower) (guess.map Char.toLower)
          (fun _ => 0)).1.length := by
      rw [firstPass_length]
      simp [h]
    rw [specFirstPass_eq]
    rw [specSecondPass_eq _ _ _ (fun t ht => hfb t ht) hflen]
  · have he1 : grade_guess solution guess =
        Except.error "solution and guess must be same length" :=
      (grade_guess_error_iff solution guess).2 h
    have he2 : grade solution guess = Except.error GradeError.LengthMismatch := by
      simp [grade, h]
    rw [he1, he2]
    rfl

/-- Model of the prompt normalization `input().strip().lower()`: trim
whitespace at both ends, then lower-case. -/
def normalize_input (w : List Char) : List Char :=
  (((w.dropWhile Char.isWhitespace).reverse.dropWhile Char.isWhitespace).reverse).map
    Char.toLower

/-- Outcome of a modelled interactive round: the winning return, the
out-of-guesses fall-through, or an abort (input stream exhausted while
prompting, the EOFError path). -/
inductive Outcome where
  | won
  | lost
  | aborted
deriving DecidableEq

/-- The inner `while True` prompt loop: consume raw inputs until one
normalizes to a guess of the solution's length that the vocabulary
allows; rejected inputs are skipped (re-prompted) without consuming an
attempt, and `none` models the stream running dry. -/
def nextValid (allowed : List Char → Bool) (len : Nat) :
    List (List Char) → Option (List Char × List (List Char))
  | [] => none
  | w :: rest =>
    let g := normalize_input w
    if g.length = len ∧ allowed g then some (g, rest)
    else nextValid allowed len rest

/-- The accepted guesses a raw input stream yields, in order. -/
def acceptedGuesses (allowed : List Char → Bool) (len : Nat) :
    List (List Char) → List (List Char)
  | [] => []
  | w :: rest =>
    let g := normalize_input w
    if g.length = len ∧ allowed g then g :: acceptedGuesses allowed len rest
    else acceptedGuesses allowed len rest

/-- The winning test of the round: the guess grades all-GREEN, the
embedding of `all(s == GREEN for s in feedback)`. -/
def isWin (solution g : List Char) : Bool :=
  match grade_guess solution g with
  | Except.ok fb => fb.all (fun t => t == Tile.GREEN)
  | Except.error _ => false

/-- The attempt loop `for attempt in range(1, max_guesses + 1)`, with the
number of remaining attempts as fuel: each iteration prompts until a
valid guess arrives, grades it, returns on all-GREEN and falls through
to a loss when the attempts are exhausted. -/
def playLoop (allowed : List Char → Bool) (solution : List Char) :
    Nat → List (List Char) → Outcome
  | 0, _ => Outcome.lost
  | n + 1, inputs =>
    match nextValid allowed solution.length inputs with
    | none => Outcome.aborted
    | some (g, rest) =>
      match grade_guess solution g with
      | Except.error _ => Outcome.aborted
      | Except.ok fb =>
        if fb.all (fun t => t == Tile.GREEN) then Outcome.won
        else playLoop allowed solution n rest

/-- Embedding of `play_interactive`: lower-case the chosen solution and
play at most 6 accepted guesses against the raw input stream. The
allowed vocabulary (the runtime-augmented `ALLOWED` set) is passed as a
parameter. -/
def play_interactive (allowed : List Char → Bool) (solution : List Char)
    (inputs : List (List Char)) : Outcome :=
  playLoop allowed (solution.map Char.toLower) 6 inputs

/-- When the prompt loop exhausts the stream, no input was acceptable. -/
theorem nextValid_none_accepted (allowed : List Char → Bool) (len : Nat)
    (inputs : List (List Char)) (h : nextValid allowed len inputs = none) :
    acceptedGuesses allowed len inputs = [] := by
  induction inputs with
  | nil => rfl
  | cons w rest ih =>
    by_cases hc : (normalize_input w).length = len ∧ allowed (normalize_input w)
    · simp [nextValid, hc] at h
    · simp only [nextValid, if_neg hc] at h
      simp only [acceptedGuesses, if_neg hc]
      exact ih h

/-- When the prompt loop accepts a guess, it is the first accepted guess
of the stream and has the required length. -/
theorem nextValid_some_accepted (allowed : List Char → Bool) (len : Nat)
    (inputs : List (List Char)) (g : List Char) (rest : List (List Char))
    (h : nextValid allowed len inputs = some (g, rest)) :
    acceptedGuesses allowed len inputs = g :: acceptedGuesses allowed len rest ∧
      g.length = len := by
  induction inputs with
  | nil => simp [nextValid] at h
  | cons w tail ih =>
    by_cases hc : (normalize_input w).length = len ∧ allowed (normalize_input w)
    · simp only [nextValid, if_pos hc, Option.some.injEq, Prod.mk.injEq] at h
      obtain ⟨hg, hrest⟩ := h
      subst hg
      subst hrest
      exact ⟨by simp [acceptedGuesses, hc], hc.1⟩
    · simp only [nextValid, if_neg hc] at h
      simp only [acceptedGuesses, if_neg hc]
      exact ih h

/-- Full characterization of the fueled attempt loop: it wins exactly
when one of the first `n` accepted guesses grades all-GREEN, and loses
exactly when `n` accepted guesses exist of which none of the first `n`
wins. -/
theorem playLoop_characterization (allowed : List Char → Bool)
    (sol : List Char) (n : Nat) (inputs : List (List Char)) :
    (playLoop allowed sol n inputs = Outcome.won ↔
      ((acceptedGuesses allowed sol.length inputs).take n).any (isWin sol) = true) ∧
    (playLoop allowed sol n inputs = Outcome.lost ↔
      n ≤ (acceptedGuesses allowed sol.length inputs).length ∧
      ((acceptedGuesses allowed sol.length inputs).take n).any (isWin sol) = false) := by
  induction n generalizing inputs with
  | zero => simp [playLoop]
  | succ n ih =>
    rcases hnv : nextValid allowed sol.length inputs with _ | ⟨g, rest⟩
    · have hacc := nextValid_none_accepted _ _ _ hnv
      simp [playLoop, hnv, hacc]
    · obtain ⟨hacc, hglen⟩ := nextValid_some_accepted _ _ _ _ _ hnv
      have hlen : sol.length = g.length := hglen.symm
      have hok := grade_guess_ok_eq sol g hlen
      have hwin : isWin sol g =
          (secondPass (g.map Char.toLower)
            (firstPass (sol.map Char.toLower) (g.map Char.toLower) (fun _ => 0)).1
            (firstPass (sol.map Char.toLower) (g.map Char.toLower) (fun _ => 0)).2).all
            (fun t => t == Tile.GREEN) := by
        simp [isWin, hok]
      rcases hw : (secondPass (g.map Char.toLower)
          (firstPass (sol.map Char.toLower) (g.map Char.toLower) (fun _ => 0)).1
          (firstPass (sol.map Char.toLower) (g.map Char.toLower) (fun _ => 0)).2).all
          (fun t => t == Tile.GREEN) with _ | _
      · have hrec := ih rest
        simp [playLoop, hnv, hok, hw, hacc, hwin, hrec]
      · simp [playLoop, hnv, hok, hw, hacc, hwin]

/-- C8: the modelled round wins exactly when one of the first at most 6
accepted guesses grades all-GREEN (terminating at the first such guess),
and loses exactly when 6 accepted non-winning guesses were consumed;
inputs of the wrong length or outside the vocabulary are re-prompted by
`nextValid`/`acceptedGuesses` without consuming one of the 6 attempts. -/
theorem play_interactive_termination (allowed : List Char → Bool)
    (solution : List Char) (inputs : List (List Char)) :
    (play_interactive allowed solution inputs = Outcome.won ↔
      ((acceptedGuesses allowed (solution.map Char.toLower).length inputs).take 6).any
        (isWin (solution.map Char.toLower)) = true) ∧
    (play_interactive allowed solution inputs = Outcome.lost ↔
      6 ≤ (acceptedGuesses allowed (solution.map Char.toLower).length inputs).length ∧
      ((acceptedGuesses allowed (solution.map Char.toLower).length inputs).take 6).any
        (isWin (solution.map Char.toLower)) = false) :=
  playLoop_characterization allowed (solution.map Char.toLower) 6 inputs

end VSWorlde
